import Mathlib

/-!
Shallow embedding of `src/data_structures/qgram_index.rs` (a q-gram index over a
rank-transformed text) and verification of the frozen claims about it.

Modelling conventions:
* `usize` is 64 bits; the only `usize` operations that can wrap on reachable
  inputs are `q - 1` (in `QGrams::new` when `q = 0`) and `p - i` (the diagonal
  key); both are modelled with explicit wrapping (`wsub`, the `q = 0` branch in
  `qgrams`).  This code targets late-2014 Rust (`std::num::Int`), where integer
  overflow wrapped silently.
* The q-gram register is a `u32` (`QGrams::<u32>` at every use site); register
  arithmetic is taken modulo `2 ^ 32`.
* `Vec` indexing is modelled with checked reads/writes (`vget` / `vset`):
  an out-of-bounds access is a Rust panic, so a function that can reach one
  returns `Option` and yields `none` there.  Likewise the `cast(..).unwrap()`
  on the mask in `QGrams::new` (it fails when `(1 <<< q) - 1` does not fit in a
  `u32`) and the `.unwrap()` on the absent-key lookup in `diagonals`.
* `HashMap` is modelled as an association list in insertion order.  The Rust
  `HashMap` iterates in an unspecified order, so the model agrees with the code
  up to permutation of the final drain; theorems about query results are read
  accordingly (membership / emptiness / abort are order-independent).
* The alphabet and its `RankTransform` live outside `src/`; they are modelled
  from the spec (dense ranks in `[0, alphabet size)`, in symbol order), and
  `bits = ceil(log2(alphabet size))` (an exact `f32` computation at the sizes
  used here) is modelled as the executable `ceilLog2`.
-/

set_option maxRecDepth 100000

namespace RustBioQGram

/-- Capacity of `usize` (64-bit). -/
def USIZE : Nat := 2 ^ 64

/-- Capacity of `u32`, the q-gram register type used at every call site. -/
def U32 : Nat := 2 ^ 32

/-- Wrapping `usize` subtraction (both operands below `USIZE`). -/
def wsub (a b : Nat) : Nat := if b ≤ a then a - b else USIZE + a - b

/-- Modelled from the spec: the external `Alphabet` is a finite set of allowed
symbols; we carry it as its list of symbols in ascending order. -/
structure Alphabet where
  symbols : List Nat
deriving DecidableEq

/-- `Alphabet::len`: the alphabet size. -/
def Alphabet.len (α : Alphabet) : Nat := α.symbols.length

/-- Modelled from the spec: the external `RankTransform` assigns each alphabet
symbol a dense integer rank in `[0, alphabet size)`; symbols get ranks in
symbol order. -/
def Alphabet.rank (α : Alphabet) (a : Nat) : Nat := α.symbols.indexOf a

/-- Fueled search for the least `k ≥ start` with `n ≤ 2 ^ k`. -/
def ceilLog2From (n : Nat) : Nat → Nat → Nat
  | k, 0 => k
  | k, fuel + 1 => if n ≤ 2 ^ k then k else ceilLog2From n (k + 1) fuel

/-- `ceil(log2 n)`: the least `k` with `n ≤ 2 ^ k` (and 0 for `n = 0`). -/
def ceilLog2 (n : Nat) : Nat := ceilLog2From n 0 n

/-- `bits` as computed in `QGrams::new`:
`(alphabet.len() as f32).log2().ceil() as usize`, i.e. `ceil(log2 len)`.
The `f32` computation is exact at the alphabet sizes considered here. -/
def bitsFor (α : Alphabet) : Nat := ceilLog2 α.len

/-- `QGrams::qgram_push`: shift the `u32` register left by `bits`, OR in the
new rank, and AND with the mask.  The mask in `QGrams::new` is
`(1 << q) - 1` (NOT `(1 << (q * bits)) - 1`). -/
def qgram_push (bits mask reg a : Nat) : Nat :=
  (((reg <<< bits) % U32) ||| a) &&& mask

/-- Register value after each successive symbol (the emitted value stream of
`Iterator::next`, before accounting for the warm-up of `QGrams::new`). -/
def qgramScan (bits mask reg : Nat) : List Nat → List Nat
  | [] => []
  | a :: rest =>
    let r := qgram_push bits mask reg a
    r :: qgramScan bits mask r rest

/-- The full emitted q-gram value sequence of one drained `QGrams` iterator.
`QGrams::new` consumes the first `q - 1` symbols without emitting; with
`q = 0` the `0..q-1` loop wraps and consumes the whole text.  The mask is
`cast::<u32>((1 << q) - 1).unwrap()`; the cast's failure (a panic) is guarded
by the callers below, so here the `u32` truncation is written as `% U32`. -/
def qgrams (q : Nat) (text : List Nat) (α : Alphabet) : List Nat :=
  (qgramScan (bitsFor α) (((1 <<< q) - 1) % U32) 0 (text.map α.rank)).drop
    (if q = 0 then text.length else q - 1)

/-- Checked `Vec` read: `none` models the Rust index-out-of-bounds panic. -/
def vget (v : List Nat) (i : Nat) : Option Nat := v.get? i

/-- Checked `Vec` write: `none` models the Rust index-out-of-bounds panic. -/
def vset (v : List Nat) (i x : Nat) : Option (List Nat) :=
  if i < v.length then some (v.set i x) else none

/-- Counting pass of `with_max_count`:
`for qgram in QGrams { address[qgram as usize] += 1 }`.
Note the increment is at index `qgram`, not `qgram + 1`. -/
def countPass (address : List Nat) : List Nat → Option (List Nat)
  | [] => some address
  | g :: rest =>
    match vget address g with
    | none => none
    | some c =>
      match vset address g (c + 1) with
      | none => none
      | some address' => countPass address' rest

/-- Masking loop body, iterating `g = start, start+1, ...` for `k` steps:
`for g in 1..address.len() { if address[g] > max_count { address[g] = 0 } }`.
All visited indices are in bounds, so the plain `List.set` is faithful. -/
def maskFrom (max_count : Nat) : Nat → Nat → List Nat → List Nat
  | _, 0, addr => addr
  | g, k + 1, addr =>
    maskFrom max_count (g + 1) k
      (if max_count < addr.getD g 0 then addr.set g 0 else addr)

/-- Masking pass of `with_max_count` (the loop starts at index 1). -/
def maskPass (addr : List Nat) (max_count : Nat) : List Nat :=
  maskFrom max_count 1 (addr.length - 1) addr

/-- Cumulative-sum loop body, iterating `i = start, ...` for `k` steps:
`for i in 1..address.len() { address[i] += address[i - 1] }`. -/
def sumFrom : Nat → Nat → List Nat → List Nat
  | _, 0, addr => addr
  | i, k + 1, addr =>
    sumFrom (i + 1) k (addr.set i (addr.getD i 0 + addr.getD (i - 1) 0))

/-- Cumulative-sum pass of `with_max_count` (the loop starts at index 1). -/
def sumPass (addr : List Nat) : List Nat := sumFrom 1 (addr.length - 1) addr

/-- Placement pass of `with_max_count`: a second `QGrams` drain; for the
`i`-th emitted value `qgram`, when `address[qgram + 1] - address[qgram] != 0`
write `i` at `pos[address[qgram] + offset[qgram]]` and bump `offset[qgram]`.
The subtraction is wrapping `usize` subtraction; the `pos` write can go out of
bounds (a panic, hence `Option`). -/
def placePass (address : List Nat) (qgram_count : Nat) (pos : List Nat)
    (qs : List Nat) : Option (List Nat) :=
  Option.map Prod.fst <|
    qs.enum.foldlM
      (fun (st : List Nat × List Nat) e => do
        let a ← vget address e.2
        let b ← vget address (e.2 + 1)
        if wsub b a ≠ 0 then do
          let o ← vget st.2 e.2
          let pos' ← vset st.1 (a + o) e.1
          let offset' ← vset st.2 e.2 (o + 1)
          pure (pos', offset')
        else
          pure st)
      (pos, List.replicate qgram_count 0)

/-- `QGramIndex`: `q`, the alphabet, the offset table `address`, and the
position arena `pos`. -/
structure QGramIndex where
  q : Nat
  alphabet : Alphabet
  address : List Nat
  pos : List Nat
deriving DecidableEq

/-- `QGramIndex::with_max_count`.  `qgram_count = alphabet.len().pow(q)`
(wrapping `usize` arithmetic), `address = vec![0; qgram_count + 1]`,
`pos = vec![0; text.len()]`, then the counting, masking, cumulative-sum and
placement passes.  `none` models a construction-time panic (the mask cast for
large `q`, or an out-of-bounds `pos` write in the placement pass). -/
def with_max_count (q : Nat) (text : List Nat) (α : Alphabet) (max_count : Nat) :
    Option QGramIndex :=
  if U32 ≤ (1 <<< q) - 1 then none
  else
    match countPass (List.replicate ((α.len ^ q) % USIZE + 1) 0) (qgrams q text α) with
    | none => none
    | some counted =>
      match placePass (sumPass (maskPass counted max_count)) ((α.len ^ q) % USIZE)
          (List.replicate text.length 0) (qgrams q text α) with
      | none => none
      | some pos => some ⟨q, α, sumPass (maskPass counted max_count), pos⟩

/-- `QGramIndex::new`: `with_max_count` with `std::usize::MAX`. -/
def QGramIndex.new (q : Nat) (text : List Nat) (α : Alphabet) : Option QGramIndex :=
  with_max_count q text α (USIZE - 1)

/-- `QGramIndex::matches`: the slice `&pos[address[g] .. address[g + 1]]`;
`none` models the panic on an out-of-range slice. -/
def QGramIndex.matches (idx : QGramIndex) (g : Nat) : Option (List Nat) := do
  let a ← vget idx.address g
  let b ← vget idx.address (g + 1)
  if a ≤ b ∧ b ≤ idx.pos.length then
    pure ((idx.pos.drop a).take (b - a))
  else
    none

/-- `Diagonal`: an (unsigned) offset together with a hit count. -/
structure Diagonal where
  pos : Nat
  count : Nat
deriving DecidableEq

/-- `HashMap::insert` on an association list: replace in place, else append. -/
def insertD : List (Nat × Nat) → Nat → Nat → List (Nat × Nat)
  | [], d, c => [(d, c)]
  | e :: rest, d, c => if e.1 = d then (d, c) :: rest else e :: insertD rest d c

/-- One hit of `QGramIndex::diagonals`: `diagonal = p - i` (wrapping), then
the branches exactly as coded: if the key is already present, `insert` a fresh
count of 1; otherwise `get_mut(&diagonal).unwrap()` panics (`none`). -/
def diagStep (m : List (Nat × Nat)) (i p : Nat) : Option (List (Nat × Nat)) :=
  let d := wsub p i
  if (List.lookup d m).isSome then some (insertD m d 1) else none

/-- `QGramIndex::diagonals`: drain `QGrams` over the pattern, look up the
matches of each emitted value, and run `diagStep` on every hit.  The final
`HashMap` drain order is unspecified in Rust; the model uses insertion order
(the result is compared only up to that order). -/
def QGramIndex.diagonals (idx : QGramIndex) (pattern : List Nat) :
    Option (List Diagonal) :=
  if U32 ≤ (1 <<< idx.q) - 1 then none
  else
    match (qgrams idx.q pattern idx.alphabet).enum.foldlM
        (fun (m : List (Nat × Nat)) e => do
          let ps ← idx.matches e.2
          ps.foldlM (fun m2 p => diagStep m2 e.1 p) m)
        ([] : List (Nat × Nat)) with
    | none => none
    | some m => some (m.map fun e => ⟨e.1, e.2⟩)

/-- `ExactMatch`: half-open pattern and text intervals. -/
structure ExactMatch where
  pattern_start : Nat
  pattern_stop : Nat
  text_start : Nat
  text_stop : Nat
deriving DecidableEq

/-- In-place update of the association-list `HashMap` at an existing key. -/
def updateEM : List (Nat × ExactMatch) → Nat → ExactMatch → List (Nat × ExactMatch)
  | [], _, _ => []
  | e :: rest, d, em => if e.1 = d then (d, em) :: rest else e :: updateEM rest d em

/-- One hit of `QGramIndex::exact_matches` at pattern index `i`, text position
`p`: `diagonal = p - i` (wrapping); start a new interval, extend when
`pattern_stop == i`, otherwise push the previous interval and restart.
State: (per-diagonal in-progress intervals, reported intervals). -/
def emStep (q : Nat) (st : List (Nat × ExactMatch) × List ExactMatch) (i p : Nat) :
    List (Nat × ExactMatch) × List ExactMatch :=
  let d := wsub p i
  match List.lookup d st.1 with
  | none => (st.1 ++ [(d, ⟨i, i + q, p, p + q⟩)], st.2)
  | some interval =>
    if interval.pattern_stop = i then
      (updateEM st.1 d ⟨interval.pattern_start, i + q, interval.text_start, p + q⟩, st.2)
    else
      (updateEM st.1 d ⟨i, i + q, p, p + q⟩, st.2 ++ [interval])

/-- `QGramIndex::exact_matches`: scan all hits with `emStep`, then report the
still-open interval of every diagonal.  The final `HashMap` drain order is
unspecified in Rust; the model uses insertion order (results are compared only
up to that order). -/
def QGramIndex.exact_matches (idx : QGramIndex) (pattern : List Nat) :
    Option (List ExactMatch) :=
  if U32 ≤ (1 <<< idx.q) - 1 then none
  else
    match (qgrams idx.q pattern idx.alphabet).enum.foldlM
        (fun (st : List (Nat × ExactMatch) × List ExactMatch) e => do
          let ps ← idx.matches e.2
          pure (ps.foldl (fun st2 p => emStep idx.q st2 e.1 p) st))
        (([] : List (Nat × ExactMatch)), ([] : List ExactMatch)) with
    | none => none
    | some st => some (st.2 ++ st.1.map Prod.snd)

/-- `std::usize::MAX`, the default `max_count` used by `QGramIndex::new`. -/
def usizeMAX : Nat := USIZE - 1

/-- The alphabet `{A, C}` (ASCII 65, 67). -/
def alphAC : Alphabet := ⟨[65, 67]⟩

/-- The alphabet `{A, C, G, T}` (ASCII 65, 67, 71, 84). -/
def alphACGT : Alphabet := ⟨[65, 67, 71, 84]⟩

/-- The text `"ACGTACGT"`. -/
def t8 : List Nat := [65, 67, 71, 84, 65, 67, 71, 84]

/-- The text `"AA"`. -/
def tAA : List Nat := [65, 65]

/-- The text `"AAA"`. -/
def tAAA : List Nat := [65, 65, 65]

/-- The text `"AAACAC"`. -/
def tAAACAC : List Nat := [65, 65, 65, 67, 65, 67]

/-- Follows the spec's words (for the refutation of C2): the bit-packed
encoding of a window of ranks, each rank occupying `bits` bits, most recent
rank in the low-order bits. -/
def packRanks (bits : Nat) (rs : List Nat) : Nat :=
  rs.foldl (fun acc r => acc * 2 ^ bits + r) 0

/-- Follows the spec's words (for the refutation of C7): the total number of
q-gram occurrences whose value is unmasked, where the spec masks every q-gram
value occurring more than `max_count` times. -/
def specUnmaskedTotal (q : Nat) (text : List Nat) (α : Alphabet) (mc : Nat) : Nat :=
  (qgrams q text α).countP fun v => decide ((qgrams q text α).count v ≤ mc)

/-- The number of q-gram occurrences the code actually retains under the cap:
the masking loop starts at index 1 and counts are stored at index `g`, so an
occurrence of value `v` survives exactly when `v = 0` or `v` occurs at most
`max_count` times. -/
def codeRetainedTotal (q : Nat) (text : List Nat) (α : Alphabet) (mc : Nat) : Nat :=
  (qgrams q text α).countP fun v =>
    decide (v = 0 ∨ (qgrams q text α).count v ≤ mc)

/-- Reading past the end of a list yields the default. -/
theorem getD_eq_zero_of_le (l : List Nat) :
    ∀ j : Nat, l.length ≤ j → l.getD j 0 = 0 := by
  induction l with
  | nil => intro j _; rfl
  | cons a t ih =>
    intro j hj
    cases j with
    | zero => simp at hj
    | succ n => exact ih n (by simpa using hj)

/-- `getD` after `set` at the written index. -/
theorem getD_set_self (l : List Nat) :
    ∀ i x : Nat, i < l.length → (l.set i x).getD i 0 = x := by
  induction l with
  | nil => intro i x h; simp at h
  | cons a t ih =>
    intro i x h
    cases i with
    | zero => rfl
    | succ n => exact ih n x (by simpa using h)

/-- `getD` after `set` at a different index. -/
theorem getD_set_ne (l : List Nat) :
    ∀ i j x : Nat, i ≠ j → (l.set i x).getD j 0 = l.getD j 0 := by
  induction l with
  | nil => intro i j x _; rfl
  | cons a t ih =>
    intro i j x h
    cases i with
    | zero =>
      cases j with
      | zero => exact absurd rfl h
      | succ m => rfl
    | succ n =>
      cases j with
      | zero => rfl
      | succ m => exact ih n m x (by omega)

/-- `getD` of a zero-filled `Vec`. -/
theorem getD_replicate (n : Nat) : ∀ j : Nat, (List.replicate n (0 : Nat)).getD j 0 = 0 := by
  induction n with
  | zero => intro j; rfl
  | succ k ih =>
    intro j
    cases j with
    | zero => rfl
    | succ m => exact ih m

/-- A successful checked read is in bounds and returns the stored value. -/
theorem vget_some (l : List Nat) :
    ∀ i c : Nat, vget l i = some c → i < l.length ∧ l.getD i 0 = c := by
  induction l with
  | nil => intro i c h; exact absurd h (by simp [vget])
  | cons a t ih =>
    intro i c h
    cases i with
    | zero =>
      refine ⟨by simp, ?_⟩
      have : a = c := by simpa [vget] using h
      simpa using this
    | succ n =>
      have h' : vget t n = some c := by simpa [vget] using h
      obtain ⟨h1, h2⟩ := ih n c h'
      exact ⟨by simpa using h1, by simpa using h2⟩

/-- The counting pass preserves the length, requires every emitted value to
be in bounds, and adds each value's multiplicity to its slot. -/
theorem countPass_spec :
    ∀ (qs addr addr' : List Nat), countPass addr qs = some addr' →
      addr'.length = addr.length ∧
      (∀ v ∈ qs, v < addr.length) ∧
      (∀ j, addr'.getD j 0 = addr.getD j 0 + qs.count j) := by
  intro qs
  induction qs with
  | nil =>
    intro addr addr' h
    have : addr = addr' := by simpa [countPass] using h
    subst this
    exact ⟨rfl, by simp, by simp⟩
  | cons g rest ih =>
    intro addr addr' h
    rw [countPass] at h
    cases hg : vget addr g with
    | none => rw [hg] at h; exact absurd h (by simp)
    | some c =>
      rw [hg] at h
      dsimp only at h
      obtain ⟨hlt, hval⟩ := vget_some addr g c hg
      have hset : vset addr g (c + 1) = some (addr.set g (c + 1)) := by
        simp [vset, hlt]
      rw [hset] at h
      dsimp only at h
      obtain ⟨h1, h2, h3⟩ := ih (addr.set g (c + 1)) addr' h
      refine ⟨by simpa using h1, ?_, ?_⟩
      · intro v hv
        rcases List.mem_cons.mp hv with rfl | hv
        · exact hlt
        · have := h2 v hv
          simpa using this
      · intro j
        have hj := h3 j
        by_cases hjg : j = g
        · subst hjg
          rw [getD_set_self addr j (c + 1) hlt] at hj
          rw [hj, List.count_cons, hval]
          simp
          omega
        · rw [getD_set_ne addr g j (c + 1) (fun e => hjg e.symm)] at hj
          rw [hj, List.count_cons]
          simp [hjg]
          omega

/-- The masking loop preserves the length. -/
theorem maskFrom_length (mc : Nat) :
    ∀ (k g : Nat) (addr : List Nat), (maskFrom mc g k addr).length = addr.length := by
  intro k
  induction k with
  | zero => intro g addr; rfl
  | succ n ih =>
    intro g addr
    rw [maskFrom, ih]
    split
    · exact List.length_set addr g 0
    · rfl

/-- Entry-wise effect of the masking loop on indices `g, ..., g + k - 1`. -/
theorem maskFrom_getD (mc : Nat) :
    ∀ (k g : Nat) (addr : List Nat) (j : Nat),
      (maskFrom mc g k addr).getD j 0 =
        if g ≤ j ∧ j < g + k ∧ mc < addr.getD j 0 then 0 else addr.getD j 0 := by
  intro k
  induction k with
  | zero =>
    intro g addr j
    rw [maskFrom, if_neg]
    rintro ⟨h1, h2, -⟩
    omega
  | succ n ih =>
    intro g addr j
    rw [maskFrom, ih]
    by_cases hjg : j = g
    · subst hjg
      rw [if_neg (by omega)]
      by_cases hm : mc < addr.getD j 0
      · have hin : j < addr.length := by
          by_contra hout
          rw [getD_eq_zero_of_le addr j (by omega)] at hm
          omega
        rw [if_pos hm, if_pos ⟨le_refl j, by omega, hm⟩]
        exact getD_set_self addr j 0 hin
      · rw [if_neg hm, if_neg (by rintro ⟨-, -, hc⟩; exact hm hc)]
    · have hne : (if mc < addr.getD g 0 then addr.set g 0 else addr).getD j 0 =
          addr.getD j 0 := by
        split
        · exact getD_set_ne addr g j 0 (fun e => hjg e.symm)
        · rfl
      rw [hne]
      by_cases hr : g + 1 ≤ j ∧ j < g + 1 + n
      · by_cases hm : mc < addr.getD j 0
        · rw [if_pos ⟨hr.1, hr.2, hm⟩, if_pos ⟨by omega, by omega, hm⟩]
        · rw [if_neg (by rintro ⟨-, -, hc⟩; exact hm hc),
            if_neg (by rintro ⟨-, -, hc⟩; exact hm hc)]
      · rw [if_neg (by rintro ⟨h1, h2, -⟩; exact hr ⟨by omega, by omega⟩),
          if_neg (by rintro ⟨h1, h2, -⟩; exact hr ⟨by omega, by omega⟩)]

/-- The cumulative-sum loop preserves the length. -/
theorem sumFrom_length :
    ∀ (k i : Nat) (addr : List Nat), (sumFrom i k addr).length = addr.length := by
  intro k
  induction k with
  | zero => intro i addr; rfl
  | succ n ih =>
    intro i addr
    rw [sumFrom, ih]
    exact List.length_set addr i _

/-- Entry-wise effect of the cumulative-sum loop: entries `i, ..., i + k - 1`
become running sums seeded by entry `i - 1`; the rest are untouched. -/
theorem sumFrom_getD :
    ∀ (k i : Nat) (addr : List Nat) (j : Nat), 1 ≤ i → i + k ≤ addr.length →
      (sumFrom i k addr).getD j 0 =
        if i ≤ j ∧ j < i + k then
          addr.getD (i - 1) 0 + ∑ h in Finset.Ico i (j + 1), addr.getD h 0
        else addr.getD j 0 := by
  intro k
  induction k with
  | zero =>
    intro i addr j _ _
    rw [sumFrom, if_neg]
    rintro ⟨h1, h2⟩
    omega
  | succ n ih =>
    intro i addr j hi hk
    have hilen : i < addr.length := by omega
    have hlen' : (addr.set i (addr.getD i 0 + addr.getD (i - 1) 0)).length =
        addr.length := List.length_set addr i _
    rw [sumFrom, ih (i + 1) _ j (by omega) (by rw [hlen']; omega)]
    by_cases hji : j = i
    · subst hji
      rw [if_neg (by omega), if_pos (by omega : j ≤ j ∧ j < j + (n + 1))]
      rw [getD_set_self addr j _ hilen]
      rw [Nat.Ico_succ_singleton, Finset.sum_singleton]
      omega
    · have hgj : (addr.set i (addr.getD i 0 + addr.getD (i - 1) 0)).getD j 0 =
          addr.getD j 0 := getD_set_ne addr i j _ (fun e => hji e.symm)
      by_cases hr : i + 1 ≤ j ∧ j < i + 1 + n
      · rw [if_pos hr, if_pos (by omega : i ≤ j ∧ j < i + (n + 1))]
        have h1 : (addr.set i (addr.getD i 0 + addr.getD (i - 1) 0)).getD
            (i + 1 - 1) 0 = addr.getD i 0 + addr.getD (i - 1) 0 := by
          simpa using getD_set_self addr i _ hilen
        rw [h1]
        have h2 : (∑ h in Finset.Ico (i + 1) (j + 1),
            (addr.set i (addr.getD i 0 + addr.getD (i - 1) 0)).getD h 0) =
            ∑ h in Finset.Ico (i + 1) (j + 1), addr.getD h 0 := by
          refine Finset.sum_congr rfl fun h hh => ?_
          have hge : i + 1 ≤ h := (Finset.mem_Ico.mp hh).1
          exact getD_set_ne addr i h _ (by omega)
        rw [h2, Finset.sum_eq_sum_Ico_succ_bot (show i < j + 1 by omega)]
        omega
      · rw [if_neg hr, if_neg (show ¬ (i ≤ j ∧ j < i + (n + 1)) by
          rintro ⟨h1, h2⟩; exact hr ⟨by omega, by omega⟩), hgj]

/-- Summing the per-value multiplicities of the values selected by `P`
counts exactly the selected occurrences, when all values are below `n`. -/
theorem sum_count_countP (P : Nat → Prop) [DecidablePred P] (n : Nat) :
    ∀ qs : List Nat, (∀ v ∈ qs, v < n) →
      (∑ h2 in Finset.range n, if P h2 then qs.count h2 else 0) =
        qs.countP fun v => decide (P v) := by
  intro qs
  induction qs with
  | nil => intro _; simp
  | cons v rest ih =>
    intro hb
    have hv : v < n := hb v (List.mem_cons_self v rest)
    have hrest : ∀ w ∈ rest, w < n := fun w hw => hb w (List.mem_cons_of_mem v hw)
    have hpt : ∀ h2 ∈ Finset.range n,
        (if P h2 then (v :: rest).count h2 else 0) =
          (if P h2 then rest.count h2 else 0) +
            (if h2 = v then (if P h2 then 1 else 0) else 0) := by
      intro h2 _
      by_cases he : h2 = v
      · subst he
        by_cases hp : P h2 <;> simp [List.count_cons, hp]
      · by_cases hp : P h2 <;> simp [List.count_cons, hp, he]
    rw [Finset.sum_congr rfl hpt, Finset.sum_add_distrib, ih hrest,
      Finset.sum_ite_eq' (Finset.range n) v fun h2 => if P h2 then 1 else 0,
      if_pos (Finset.mem_range.mpr hv)]
    simp [List.countP_cons]

/-- Unfolding a successful construction: the address table is the masked and
then cumulatively-summed counting table. -/
theorem with_max_count_address (q : Nat) (text : List Nat) (α : Alphabet)
    (mc : Nat) (idx : QGramIndex) (h : with_max_count q text α mc = some idx) :
    ∃ counted,
      countPass (List.replicate ((α.len ^ q) % USIZE + 1) 0) (qgrams q text α) =
        some counted ∧
      idx.address = sumPass (maskPass counted mc) := by
  unfold with_max_count at h
  split at h
  · cases h
  · split at h
    · cases h
    · rename_i counted heq
      split at h
      · cases h
      · rename_i pos hp
        refine ⟨counted, heq, ?_⟩
        cases h
        rfl

/-- The address table of a successfully built index is the table of prefix
sums of the capped per-value counts, where value 0 is exempt from the cap. -/
theorem address_formula (q : Nat) (text : List Nat) (α : Alphabet) (mc : Nat)
    (idx : QGramIndex) (h : with_max_count q text α mc = some idx) :
    idx.address.length = (α.len ^ q) % USIZE + 1 ∧
    (∀ v ∈ qgrams q text α, v < (α.len ^ q) % USIZE + 1) ∧
    ∀ j, j < (α.len ^ q) % USIZE + 1 →
      idx.address.getD j 0 =
        ∑ h2 in Finset.range (j + 1),
          if h2 = 0 ∨ (qgrams q text α).count h2 ≤ mc
          then (qgrams q text α).count h2 else 0 := by
  obtain ⟨counted, heq, haddr⟩ := with_max_count_address q text α mc idx h
  obtain ⟨hclen, hmem, hcget⟩ :=
    countPass_spec (qgrams q text α) (List.replicate ((α.len ^ q) % USIZE + 1) 0)
      counted heq
  rw [List.length_replicate] at hclen
  have hmem' : ∀ v ∈ qgrams q text α, v < (α.len ^ q) % USIZE + 1 := by
    intro v hv
    have := hmem v hv
    rwa [List.length_replicate] at this
  have hcget' : ∀ j, counted.getD j 0 = (qgrams q text α).count j := by
    intro j
    rw [hcget j, getD_replicate]
    omega
  have hmlen : (maskPass counted mc).length = (α.len ^ q) % USIZE + 1 := by
    rw [maskPass, maskFrom_length, hclen]
  have hmget : ∀ j, (maskPass counted mc).getD j 0 =
      if j = 0 ∨ (qgrams q text α).count j ≤ mc
      then (qgrams q text α).count j else 0 := by
    intro j
    rw [maskPass, maskFrom_getD, hclen, hcget' j]
    by_cases hj0 : j = 0
    · subst hj0
      rw [if_neg (by omega), if_pos (Or.inl rfl)]
    · by_cases hjN : j < (α.len ^ q) % USIZE + 1
      · by_cases hcap : mc < (qgrams q text α).count j
        · rw [if_pos ⟨by omega, by omega, hcap⟩,
            if_neg (by rintro (h0 | hle) <;> omega)]
        · rw [if_neg (by rintro ⟨-, -, hc⟩; exact hcap hc),
            if_pos (Or.inr (by omega))]
      · have hc0 : (qgrams q text α).count j = 0 :=
          List.count_eq_zero.mpr fun hmemj => by have := hmem' j hmemj; omega
        rw [hc0, if_neg (by rintro ⟨-, h2, -⟩; omega),
          if_pos (Or.inr (Nat.zero_le mc))]
  have hslen : (sumPass (maskPass counted mc)).length = (α.len ^ q) % USIZE + 1 := by
    rw [sumPass, sumFrom_length, hmlen]
  refine ⟨by rw [haddr, hslen], hmem', ?_⟩
  intro j hj
  rw [haddr, sumPass,
    sumFrom_getD ((maskPass counted mc).length - 1) 1 (maskPass counted mc) j
      (le_refl 1) (by omega), hmlen]
  by_cases hj0 : j = 0
  · subst hj0
    rw [if_neg (by omega), hmget 0]
    simp
  · rw [if_pos ⟨by omega, by omega⟩, hmget 0]
    have hm0 : (∑ h2 in Finset.Ico 0 (j + 1), (maskPass counted mc).getD h2 0) =
        (maskPass counted mc).getD 0 0 +
          ∑ h2 in Finset.Ico 1 (j + 1), (maskPass counted mc).getD h2 0 := by
      simpa using Finset.sum_eq_sum_Ico_succ_bot (show 0 < j + 1 by omega)
        fun h2 => (maskPass counted mc).getD h2 0
    rw [hmget 0] at hm0
    rw [← hm0, ← Finset.range_eq_Ico]
    exact Finset.sum_congr rfl fun h2 _ => hmget h2

/-- Claim C1 is false on the code: the counting pass increments
`address[g]`, not `address[g + 1]`.  For `q = 1`, text `"AA"`, alphabet
`{A, C}`: both windows encode to 0, yet the built table is `[2, 2, 2]`
(so `address[0] = 2`, not the count 0 of q-grams `< 0`) and `matches(0)`
is empty instead of `[0, 1]`. -/
theorem c1_counting_not_shifted :
    qgrams 1 tAA alphAC = [0, 0] ∧
    (with_max_count 1 tAA alphAC usizeMAX).map QGramIndex.address = some [2, 2, 2] ∧
    ((with_max_count 1 tAA alphAC usizeMAX).bind fun idx => idx.matches 0) =
      some [] := by decide

/-- Claim C2 is false on the code: the register mask is `(1 << q) - 1`, which
keeps the low `q` bits, not the low `q * bits` bits.  With `q = 3` over
`{A, C, G, T}` (`bits = 2`, ranks C ↦ 1, G ↦ 2, T ↦ 3) the window `"CGT"` is
emitted as 3, while its bit-packed encoding is `packRanks 2 [1, 2, 3] = 27`:
the emitted stream for `"ACGT"` is `[6, 3]`, not `[6, 27]`. -/
theorem c2_mask_width_wrong :
    bitsFor alphACGT = 2 ∧
    (alphACGT.rank 67, alphACGT.rank 71, alphACGT.rank 84) = (1, 2, 3) ∧
    qgrams 3 [65, 67, 71, 84] alphACGT = [6, 3] ∧
    packRanks 2 [1, 2, 3] = 27 ∧
    ¬ qgrams 3 [65, 67, 71, 84] alphACGT =
        [packRanks 2 [0, 1, 2], packRanks 2 [1, 2, 3]] := by decide

/-- Claim C3 is false on the code: the two branches of the per-diagonal
tally are inverted, so the very first hit on any diagonal reaches
`diagonals.get_mut(&diagonal).unwrap()` with an absent key and panics
(`none` in the model).  On the index of `"ACGTACGT"` (q = 3) the pattern
`"ACGTACGT"` has a hit (`matches 3 = [1]`), and `diagonals` aborts. -/
theorem c3_diagonals_abort_on_first_hit :
    (with_max_count 3 t8 alphACGT usizeMAX).isSome = true ∧
    ((with_max_count 3 t8 alphACGT usizeMAX).bind fun idx => idx.matches 3) =
      some [1] ∧
    ((with_max_count 3 t8 alphACGT usizeMAX).bind fun idx => idx.diagonals t8) =
      none := by decide

/-- Claim C4 is false on the code: the extension test is
`interval.pattern_stop == i`, but after a hit at pattern position `i - 1` the
stop is `i - 1 + q ≠ i` whenever `q > 1`, so consecutive hits are never
merged.  On the index of `"AAACAC"` (q = 2, alphabet `{A, C}`), `matches 0 =
[0, 1]` and the pattern `"AAA"` emits `[0, 0]`, giving a run of k = 2 hits at
consecutive pattern positions (0, 0) and (1, 1) on diagonal 0; the claim
requires the single merged interval `[0, 3) / [0, 3)` (length q + k - 1 = 3),
but the output instead contains the two unmerged intervals `[0, 2) / [0, 2)`
and `[1, 3) / [1, 3)`. -/
theorem c4_consecutive_hits_not_merged :
    ((with_max_count 2 tAAACAC alphAC usizeMAX).bind fun idx => idx.matches 0) =
      some [0, 1] ∧
    qgrams 2 tAAA alphAC = [0, 0] ∧
    ((with_max_count 2 tAAACAC alphAC usizeMAX).bind fun idx =>
        idx.exact_matches tAAA).map
      (fun l => (decide (ExactMatch.mk 0 3 0 3 ∈ l),
        decide (ExactMatch.mk 0 2 0 2 ∈ l), decide (ExactMatch.mk 1 3 1 3 ∈ l))) =
      some (false, true, true) := by decide

/-- Claim C5 is false on the code: indexing `"ACGTACGT"` with q = 3 over
`{A, C, G, T}` and querying the pattern `"ACGTACGT"` does not yield the
full-span match `[0, 8) / [0, 8)`.  The broken counting layout empties most
buckets (only `matches 3 = [1]` remains), and the output is
`[1, 4) / [1, 4)` together with `[5, 8) / [1, 4)` (the latter keyed by the
wrapped diagonal `1 - 5`). -/
theorem c5_self_match_interval_missing :
    ((with_max_count 3 t8 alphACGT usizeMAX).bind fun idx => idx.exact_matches t8) =
      some [⟨1, 4, 1, 4⟩, ⟨5, 8, 1, 4⟩] ∧
    ((with_max_count 3 t8 alphACGT usizeMAX).bind fun idx =>
        idx.exact_matches t8).map (fun l => decide (ExactMatch.mk 0 8 0 8 ∈ l)) =
      some false := by decide

/-- Claim C6 is false on the code: `matches g` reads the slice
`pos[address[g] .. address[g + 1]]`, whose width is governed by the count of
`g + 1`, not of `g`.  On `"ACGTACGT"` with q = 3 and `max_count = 1`, the
value 3 occurs twice (more than `max_count`), yet `matches 3 = [1]`, not the
empty sequence. -/
theorem c6_capped_qgram_still_returned :
    (qgrams 3 t8 alphACGT).count 3 = 2 ∧
    ((with_max_count 3 t8 alphACGT 1).bind fun idx => idx.matches 3) =
      some [1] := by decide

/-- Claim C7 as stated is false on the code: with `q = 1`, text `"AAA"`,
alphabet `{A, C}` and `max_count = 1`, the value 0 occurs 3 times, so the
spec's notion of unmasked occurrences totals 0; but the masking loop starts
at index 1 and counts sit at index `g`, so the final entry `address[2]` is 3. -/
theorem c7_counterexample :
    (with_max_count 1 tAAA alphAC 1).map QGramIndex.address = some [3, 3, 3] ∧
    specUnmaskedTotal 1 tAAA alphAC 1 = 0 ∧
    ¬ [3, 3, 3].getD 2 0 = specUnmaskedTotal 1 tAAA alphAC 1 := by decide

/-- Claim C8 as stated is false on the code: `Diagonal::pos` is `usize` and
`p - i` is unsigned, and `diagonals` does not return normally on any pattern
with a hit — the inverted tally aborts at the first hit (here a hit with
`p = 0 < 1 = i` exists and `diagonals` is `none`). -/
theorem c8_counterexample :
    (with_max_count 2 tAAACAC alphAC usizeMAX).isSome = true ∧
    ((with_max_count 2 tAAACAC alphAC usizeMAX).bind fun idx =>
      idx.diagonals tAAA) = none := by decide

/-- Claim C8, amended: the diagonal key is the wrapping unsigned difference
`p - i` (`wsub 0 1 = 2 ^ 64 - 1`, not a negative number); `exact_matches`
does return normally on hits with `p < i`, keying the interval by the wrapped
offset (at pattern index 1 the hit at text position 0 produces the interval
`[1, 3) / [0, 2)` under key `2 ^ 64 - 1`); `diagonals` aborts on its first
hit regardless of sign. -/
theorem c8_wrapped_offsets :
    wsub 0 1 = USIZE - 1 ∧
    ((with_max_count 2 tAAACAC alphAC usizeMAX).bind fun idx =>
        idx.exact_matches tAAA) =
      some [⟨0, 2, 0, 2⟩, ⟨1, 3, 1, 3⟩, ⟨0, 2, 1, 3⟩, ⟨1, 3, 0, 2⟩] := by decide

/-- Claim C9 is false on the code: there is no precondition validation at
all.  Construction with `q = 0` (and with a text shorter than `q`) completes
normally and returns a usable index. -/
theorem c9_counterexample :
    (with_max_count 0 [65] alphAC usizeMAX).isSome = true ∧
    (with_max_count 3 [65, 67] alphAC usizeMAX).isSome = true := by decide

/-- Claim C9, amended: construction performs no boundary validation; with
`q = 0` or a text shorter than `q` the q-gram stream is empty and the call
returns a normally constructed index whose buckets are all empty, rather
than failing. -/
theorem c9_no_validation :
    (with_max_count 0 [65] alphAC usizeMAX).map QGramIndex.address = some [0, 0] ∧
    ((with_max_count 0 [65] alphAC usizeMAX).bind fun idx => idx.matches 0) =
      some [] ∧
    (with_max_count 3 [65, 67] alphAC usizeMAX).map QGramIndex.address =
      some (List.replicate 9 0) ∧
    ((with_max_count 3 [65, 67] alphAC usizeMAX).bind fun idx => idx.matches 3) =
      some [] := by decide

/-- Claim C7, amended: after every successful construction the address table
is non-decreasing, and its final entry `address[qgram_space_size]` equals the
number of q-gram occurrences the code retains under the cap — occurrences of
value 0 (never visited by the masking loop) plus occurrences of every value
that occurs at most `max_count` times.  It is not the spec's unmasked total
(`specUnmaskedTotal`), which also caps value 0. -/
theorem c7_address_monotone_final_total (q : Nat) (text : List Nat) (α : Alphabet)
    (mc : Nat) (idx : QGramIndex) (h : with_max_count q text α mc = some idx) :
    (∀ g, g + 1 < idx.address.length →
      idx.address.getD g 0 ≤ idx.address.getD (g + 1) 0) ∧
    idx.address.getD ((α.len ^ q) % USIZE) 0 = codeRetainedTotal q text α mc := by
  obtain ⟨hlen, hmem, hform⟩ := address_formula q text α mc idx h
  constructor
  · intro g hg
    rw [hlen] at hg
    rw [hform g (by omega), hform (g + 1) (by omega)]
    nth_rewrite 2 [Finset.sum_range_succ]
    exact Nat.le_add_right _ _
  · rw [hform ((α.len ^ q) % USIZE) (by omega), codeRetainedTotal]
    exact sum_count_countP (fun v => v = 0 ∨ (qgrams q text α).count v ≤ mc)
      ((α.len ^ q) % USIZE + 1) (qgrams q text α) hmem

/-- Witness for the amended C7 at `q = 1`, text `"AAA"`, alphabet `{A, C}`,
`max_count = 1` (the constructed index is `⟨1, {A,C}, [3,3,3], [0,0,0]⟩`). -/
theorem c7_address_monotone_final_total_witness :
    (∀ g, g + 1 < (QGramIndex.mk 1 alphAC [3, 3, 3] [0, 0, 0]).address.length →
      (QGramIndex.mk 1 alphAC [3, 3, 3] [0, 0, 0]).address.getD g 0 ≤
        (QGramIndex.mk 1 alphAC [3, 3, 3] [0, 0, 0]).address.getD (g + 1) 0) ∧
    (QGramIndex.mk 1 alphAC [3, 3, 3] [0, 0, 0]).address.getD
        ((alphAC.len ^ 1) % USIZE) 0 = codeRetainedTotal 1 tAAA alphAC 1 :=
  c7_address_monotone_final_total 1 tAAA alphAC 1
    ⟨1, alphAC, [3, 3, 3], [0, 0, 0]⟩ (by decide)

/-- Claim C10 is confirmed: the masking loop of `with_max_count` runs over
indices `1 .. address.len()` only, and the counting pass stores the count of
q-gram value 0 at `address[0]`, so for every `max_count` — however small —
entry 0 of the built table still holds the full occurrence count of the
all-zero-ranks q-gram value. -/
theorem c10_value_zero_never_capped (q : Nat) (text : List Nat) (α : Alphabet)
    (mc : Nat) (idx : QGramIndex) (h : with_max_count q text α mc = some idx) :
    idx.address.getD 0 0 = (qgrams q text α).count 0 := by
  obtain ⟨hlen, hmem, hform⟩ := address_formula q text α mc idx h
  rw [hform 0 (by omega)]
  simp

/-- Witness for C10 at `q = 1`, text `"AAA"`, alphabet `{A, C}`,
`max_count = 0`: value 0 occurs 3 times (far above the cap), yet entry 0 of
the built table is 3. -/
theorem c10_value_zero_never_capped_witness :
    (QGramIndex.mk 1 alphAC [3, 3, 3] [0, 0, 0]).address.getD 0 0 =
      (qgrams 1 tAAA alphAC).count 0 :=
  c10_value_zero_never_capped 1 tAAA alphAC 0
    ⟨1, alphAC, [3, 3, 3], [0, 0, 0]⟩ (by decide)

end RustBioQGram
